import Mathlib

/-!
# Verification of the `fetch` artifact fetcher

A shallow embedding, in Lean 4, of the core algorithms of the
`gruntwork-io/fetch` command-line tool, together with theorems checking the
tool's natural-language specification against the code.

Go strings are modelled as lists of characters (`GoString`), Go's
`(T, error)` return shape as products with `Option FetchError`, and file
system effects of the zip extractor as an explicit list of actions.
-/

deriving instance DecidableEq for Except

namespace Fetch

/-- Go strings, modelled as lists of characters. -/
abbrev GoString := List Char

/-- The whitespace characters trimmed by Go's `strings.TrimSpace`
(restricted to the ASCII whitespace relevant to tag expressions). -/
def isSpaceChar (c : Char) : Bool :=
  c = ' ' || c = '\t' || c = '\n' || c = '\r'

/-- Embedding of Go `strings.TrimSpace`: drop whitespace from both ends. -/
def trimSpace (s : GoString) : GoString :=
  ((s.dropWhile isSpaceChar).reverse.dropWhile isSpaceChar).reverse

/-- Embedding of Go `strings.Contains sub s`: `sub` occurs inside `s`. -/
def containsSub (s sub : GoString) : Bool :=
  match s with
  | [] => sub.isEmpty
  | c :: rest => sub.isPrefixOf (c :: rest) || containsSub rest sub

/-- Embedding of Go `strings.TrimPrefix`. -/
def trimPrefix (s p : GoString) : GoString :=
  if p.isPrefixOf s then s.drop p.length else s

/-- Embedding of Go `strings.Split s "."` (split on the dot character,
keeping empty segments). -/
def splitOnDot (s : GoString) : List GoString :=
  match s with
  | [] => [[]]
  | c :: rest =>
    match splitOnDot rest with
    | [] => [[]]
    | seg :: segs => if c = '.' then [] :: seg :: segs else (c :: seg) :: segs

/-- Embedding of Go `strings.Split s ","` (split on the comma character). -/
def splitOnComma (s : GoString) : List GoString :=
  match s with
  | [] => [[]]
  | c :: rest =>
    match splitOnComma rest with
    | [] => [[]]
    | seg :: segs => if c = ',' then [] :: seg :: segs else (c :: seg) :: segs

/-- Numeric value of a string of decimal digits (Go `strconv.ParseInt`,
restricted to the all-digit strings produced by the version regexp). -/
def natOfDigits (s : GoString) : Nat :=
  s.foldl (fun acc c => acc * 10 + (c.toNat - '0'.toNat)) 0

/-- Decimal rendering of a natural number (Go `strconv.FormatInt`). -/
def natToString (n : Nat) : GoString :=
  Nat.toDigits 10 n

/-- Join a list of strings with `.` separators (Go `strings.Join parts "."`). -/
def joinDots : List GoString → GoString
  | [] => []
  | [p] => p
  | p :: q :: rest => p ++ '.' :: joinDots (q :: rest)

/-! ## The `hashicorp/go-version` library

Modelled from the spec: the semantic-version parsing, ordering and
constraint checking used by `tag.go` live in the third-party library
`github.com/hashicorp/go-version`, which is not part of this repository's
source. Per the spec's glossary, version literals have the form
`MAJOR.MINOR.PATCH` (dot-separated numeric segments), optionally
`v`-prefixed; the operators are `= != > >= < <= ~>` with `~>` pessimistic.
-/

/-- A parsed semantic version: numeric segments zero-padded to at least
three entries, and `si`, the number of segments written in the original
string (used by the pessimistic operator). -/
structure GoVersion where
  segments : List Nat
  si : Nat
  deriving Repr, DecidableEq

instance : Inhabited GoVersion := ⟨⟨[0, 0, 0], 1⟩⟩

/-- Zero-pad a segment list to at least three entries. -/
def padTo3 (l : List Nat) : List Nat :=
  l ++ List.replicate (3 - l.length) 0

/-- A version-core segment is a nonempty string of decimal digits. -/
def goodSegment (p : GoString) : Bool :=
  !p.isEmpty && p.all Char.isDigit

/-- Strip the optional leading `v` of a version literal. -/
def stripV (s : GoString) : GoString :=
  match s with
  | [] => []
  | c :: r => if c = 'v' then r else c :: r

/-- Modelled from the spec: `version.NewVersion` of hashicorp/go-version.
Accepts an optional leading `v` followed by one or more dot-separated
decimal numeric segments; segments are zero-padded to at least three. -/
def NewVersion (s : GoString) : Option GoVersion :=
  let parts := splitOnDot (stripV s)
  if parts.all goodSegment then
    some { segments := padTo3 (parts.map natOfDigits), si := parts.length }
  else none

/-- Modelled from the spec: `Version.String()` renders the (padded)
segments joined with dots; the `v` prefix of the original spelling is
dropped. -/
def versionString (v : GoVersion) : GoString :=
  joinDots (v.segments.map natToString)

/-- Compare two segment lists the way go-version's `Compare` does:
pairwise numeric comparison, with a shorter list equal to a longer one
exactly when the longer one's remaining segments are all zero. -/
def compareSegs : List Nat → List Nat → Ordering
  | [], [] => .eq
  | [], y :: ys => if (y :: ys).all (· = 0) then .eq else .lt
  | x :: xs, [] => if (x :: xs).all (· = 0) then .eq else .gt
  | x :: xs, y :: ys =>
    if x < y then .lt else if y < x then .gt else compareSegs xs ys

/-- Modelled from the spec: version ordering of hashicorp/go-version
(prerelease-free versions compare by their numeric segments). -/
def versionCompare (a b : GoVersion) : Ordering :=
  compareSegs a.segments b.segments

/-- `sort.Sort(version.Collection(versions))`: sort ascending by version
order (insertion sort; ties keep list order, which is observationally
irrelevant because equal versions render to the same canonical string). -/
def insertVersion (v : GoVersion) : List GoVersion → List GoVersion
  | [] => [v]
  | w :: ws =>
    if versionCompare v w = .gt then w :: insertVersion v ws else v :: w :: ws

/-- Ascending sort of a version list. -/
def sortVersions (l : List GoVersion) : List GoVersion :=
  l.foldr insertVersion []

/-- The recognized constraint operators of hashicorp/go-version. -/
inductive ConstraintOp where
  | eq | neq | gt | lt | ge | le | pessimistic
  deriving Repr, DecidableEq

/-- A single constraint: an operator applied to a version literal. -/
abbrev Constraint := ConstraintOp × GoVersion

/-- Recognize an operator prefix of a trimmed constraint part, longest
match first, defaulting to equality when no operator is written. -/
def splitOperator (t : GoString) : ConstraintOp × GoString :=
  match t with
  | '<' :: '=' :: r => (.le, r)
  | '>' :: '=' :: r => (.ge, r)
  | '!' :: '=' :: r => (.neq, r)
  | '~' :: '>' :: r => (.pessimistic, r)
  | '=' :: r => (.eq, r)
  | '<' :: r => (.lt, r)
  | '>' :: r => (.gt, r)
  | _ => (.eq, t)

/-- Modelled from the spec: parsing of one comma-separated constraint
part: optional whitespace, optional operator, optional whitespace, a
version literal, optional whitespace. -/
def parseConstraintPart (s : GoString) : Option Constraint :=
  let (op, rest) := splitOperator (trimSpace s)
  match NewVersion (trimSpace rest) with
  | some v => some (op, v)
  | none => none

/-- Parse every comma-separated constraint part; the first failing part
yields the library's `Malformed constraint: <part>` error message. -/
def parseConstraintParts : List GoString → Except GoString (List Constraint)
  | [] => .ok []
  | p :: ps =>
    match parseConstraintPart p with
    | none => .error (("Malformed constraint: ").data ++ p)
    | some c =>
      match parseConstraintParts ps with
      | .error e => .error e
      | .ok cs => .ok (c :: cs)

/-- Modelled from the spec: `version.NewConstraint` splits on commas and
parses every part. -/
def NewConstraint (s : GoString) : Except GoString (List Constraint) :=
  parseConstraintParts (splitOnComma s)

/-- Modelled from the spec: go-version's pessimistic operator `~>`.
`~> X.Y.Z` admits `[X.Y.Z, X.Y+1.0)`; `~> X.Y` admits `[X.Y, X+1.0)`.
The check compares the written segments of the constraint: all but the
last must match exactly, the last may grow. -/
def checkPessimistic (c v : GoVersion) : Bool :=
  if versionCompare v c = .lt then false
  else if c.segments.length > v.segments.length then false
  else
    ((List.range (c.si - 1)).all fun i => v.segments.getD i 0 = c.segments.getD i 0)
      && (c.segments.getD (c.si - 1) 0 ≤ v.segments.getD (c.si - 1) 0)

/-- Modelled from the spec: go-version's per-operator constraint check. -/
def checkConstraint (c : Constraint) (v : GoVersion) : Bool :=
  match c.1 with
  | .eq => versionCompare v c.2 = .eq
  | .neq => versionCompare v c.2 ≠ .eq
  | .gt => versionCompare v c.2 = .gt
  | .lt => versionCompare v c.2 = .lt
  | .ge => versionCompare v c.2 ≠ .lt
  | .le => versionCompare v c.2 ≠ .gt
  | .pessimistic => checkPessimistic c.2 v

/-- `Constraints.Check`: a version must satisfy every comma-separated part. -/
def constraintsCheck (cs : List Constraint) (v : GoVersion) : Bool :=
  cs.all fun c => checkConstraint c v

/-! ## Error taxonomy (`fetch_error.go`, `fetch_error_constants.go`) -/

/-- Embedding of the `FetchError` struct: numeric code, detail string and
the optional underlying Go error (modelled by its message). -/
structure FetchError where
  errorCode : Int
  details : GoString
  err : Option GoString
  deriving Repr, DecidableEq

/-- Embedding of `newError`. -/
def newError (errorCode : Int) (details : GoString) : FetchError :=
  { errorCode := errorCode, details := details, err := none }

/-- Embedding of `wrapError`: Go's `nil` error becomes `none`; a non-nil
error becomes a `FetchError` with code `-1` whose details are the
underlying error's message. -/
def wrapError : Option GoString → Option FetchError
  | none => none
  | some e => some { errorCode := -1, details := e, err := some e }

/-- `invalidTagConstraintExpression` from `fetch_error_constants.go`. -/
def invalidTagConstraintExpression : Int := 100

/-- `checksumDoesNotMatch` from `fetch_error_constants.go`. -/
def checksumDoesNotMatch : Int := 510

/-- `errorWhileComputingChecksum` from `fetch_error_constants.go`. -/
def errorWhileComputingChecksum : Int := 520

/-! ## The semver resolver (`tag.go`) -/

/-- Embedding of `isTagConstraintSpecificTag`: dispatch on the first
character of the expression. -/
def isTagConstraintSpecificTag (tagConstraint : GoString) : Bool × GoString :=
  match tagConstraint with
  | [] => (false, [])
  | c :: rest =>
    if c = '=' then (true, trimSpace rest)
    else if c = '>' || c = '<' || c = '!' || c = '~' then (false, c :: rest)
    else (true, trimSpace (c :: rest))

/-- The tag-parsing loop of `getLatestAcceptableTag`: parse every tag,
stopping with the library's `Malformed version` error at the first tag
that does not parse. -/
def parseTagVersions : List GoString → Except GoString (List GoVersion)
  | [] => .ok []
  | t :: ts =>
    match NewVersion t with
    | none => .error ("Malformed version: ".data ++ t)
    | some v =>
      match parseTagVersions ts with
      | .error e => .error e
      | .ok vs => .ok (v :: vs)

/-- Embedding of `getLatestAcceptableTag` (`tag.go`): empty tag list
returns the empty string without error; every tag is parsed (the first
parse failure is returned as a wrapped error); tags are sorted ascending;
an empty constraint becomes the greatest version's canonical string; the
loop keeps the greatest version that satisfies the constraint, starting
from the smallest version; finally the canonical string of the selected
version is mapped back to the last original tag containing it as a
substring. -/
def getLatestAcceptableTag (tagConstraint : GoString) (tags : List GoString) :
    GoString × Option FetchError :=
  if tags.isEmpty then ([], none)
  else
    match parseTagVersions tags with
    | .error msg => ([], wrapError (some msg))
    | .ok parsed =>
      let versions := sortVersions parsed
      let constraintExpr :=
        if tagConstraint.isEmpty then versionString versions.getLast! else tagConstraint
      match NewConstraint constraintExpr with
      | .error msg =>
        if containsSub msg (("Malformed constraint").data) then
          ([], some (newError invalidTagConstraintExpression msg))
        else ([], wrapError (some msg))
      | .ok constraints =>
        let latestAcceptableVersion := versions.foldl
          (fun best v =>
            if constraintsCheck constraints v && versionCompare v best = .gt then v else best)
          versions.head!
        let latestTag := tags.foldl
          (fun acc t =>
            if containsSub t (versionString latestAcceptableVersion) then t else acc)
          []
        (latestTag, none)

/-- Embedding of the tag-selection loop of `FetchTags` (`github.go`):
tag names that do not parse as semantic versions are skipped, all others
are kept in order. -/
def fetchTagsSelect : List GoString → List GoString
  | [] => []
  | t :: ts =>
    if (NewVersion t).isSome then t :: fetchTagsSelect ts else fetchTagsSelect ts

/-! ## Path manipulation (Go `path/filepath`, Unix rules)

Modelled from the spec: `filepath.Join`, `filepath.Clean` and
`filepath.Dir` belong to Go's standard library, not to this repository.
They are embedded here with their documented Unix semantics: `Clean`
applies lexical simplification (drops empty and `.` components, resolves
`..` against preceding components, keeps leading `..` on relative paths,
never escapes the root `/`), `Join` concatenates non-empty elements with
slashes and cleans the result, and `Dir` is everything up to the final
slash, cleaned. -/

/-- Split a path on `/`, keeping empty components. -/
def splitOnSlash (s : GoString) : List GoString :=
  match s with
  | [] => [[]]
  | c :: rest =>
    match splitOnSlash rest with
    | [] => [[]]
    | seg :: segs => if c = '/' then [] :: seg :: segs else (c :: seg) :: segs

/-- One step of `Clean`'s component processing; `out` is the stack of
retained components, most recent first. -/
def cleanStack (rooted : Bool) (out : List GoString) (part : GoString) : List GoString :=
  if part.isEmpty || part = ['.'] then out
  else if part = ['.', '.'] then
    match out with
    | [] => if rooted then [] else [['.', '.']]
    | q :: rest => if q = ['.', '.'] then ['.', '.'] :: q :: rest else rest
  else part :: out

/-- Join path components with `/` separators. -/
def joinSlash : List GoString → GoString
  | [] => []
  | [p] => p
  | p :: q :: rest => p ++ '/' :: joinSlash (q :: rest)

/-- Embedding of Go `filepath.Clean` (Unix). -/
def filepathClean (p : GoString) : GoString :=
  if p.isEmpty then ['.']
  else
    let rooted := p.head? = some '/'
    let comps := ((splitOnSlash p).foldl (cleanStack rooted) []).reverse
    if rooted then '/' :: joinSlash comps
    else if comps.isEmpty then ['.']
    else joinSlash comps

/-- Embedding of Go `filepath.Join` on two elements: empty elements are
ignored and the slash-joined result is cleaned. -/
def filepathJoin2 (a b : GoString) : GoString :=
  if a.isEmpty && b.isEmpty then []
  else if a.isEmpty then filepathClean b
  else if b.isEmpty then filepathClean a
  else filepathClean (a ++ '/' :: b)

/-- Embedding of Go `filepath.Dir`: everything up to and including the
final `/` (empty when there is no slash), cleaned. -/
def filepathDir (p : GoString) : GoString :=
  filepathClean ((p.reverse.dropWhile fun c => !(c = '/')).reverse)

/-! ## The archive extractor -/

/-- An entry of a zip archive as the extractor sees it: its name, whether
its file info reports a directory, whether its mode bits mark a symlink,
and its payload bytes. -/
structure ZipEntry where
  name : GoString
  isDir : Bool
  isSymlink : Bool
  content : GoString
  deriving Repr, DecidableEq

instance : Inhabited ZipEntry := ⟨⟨[], false, false, []⟩⟩

/-- The file-system effects the extractor can perform, in order. -/
inductive FsAction where
  /-- `os.MkdirAll path 0777` -/
  | mkdir (path : GoString)
  /-- `os.WriteFile path content 0644` -/
  | write (path : GoString) (content : GoString)
  /-- `os.Symlink target path` -/
  | symlink (target : GoString) (path : GoString)
  /-- `evalSymLinkAndCopyFiles`: resolve the symlink at `path` and replace
  it with a copy of its target's contents -/
  | resolveAndCopy (path : GoString)
  deriving Repr, DecidableEq

/-- Embedding of `shouldExtractPathInZip`: extract a regular file whose
name equals the prefix exactly, or any entry whose name starts with the
prefix followed by `/`. -/
def shouldExtractPathInZip (pathPrefix : GoString) (f : ZipEntry) : Bool :=
  (!f.isDir && f.name = pathPrefix) || (pathPrefix ++ ['/']).isPrefixOf f.name

/-- The entry loop of the current `extractFiles`: emitted actions plus the
count of regular files written. -/
def extractZipEntries (pathPrefix localPath : GoString) :
    List ZipEntry → List FsAction × Nat
  | [] => ([], 0)
  | f :: fs =>
    let rest := extractZipEntries pathPrefix localPath fs
    if shouldExtractPathInZip pathPrefix f then
      if f.isDir then
        (.mkdir (filepathJoin2 localPath (trimPrefix f.name pathPrefix)) :: rest.1, rest.2)
      else
        (.write (filepathJoin2 localPath (trimPrefix f.name pathPrefix)) f.content :: rest.1,
          rest.2 + 1)
    else rest

/-- Embedding of the current `extractFiles`: the stripping root is the
first entry's name, the requested prefix is joined onto it, and the entry
loop emits directories and regular files, returning the regular-file
count. -/
def extractFiles (entries : List ZipEntry) (filesToExtractFromZipPath localPath : GoString) :
    List FsAction × Nat :=
  let pathPrefix :=
    filepathJoin2 (entries.head?.getD default).name filesToExtractFromZipPath
  extractZipEntries pathPrefix localPath entries

/-- First pass of the legacy `extractFiles` (`file.go`): for every entry
whose name starts with the prefix, create directories, create symlinks
(target: the payload bytes joined onto the link's parent directory, as in
`writeFileAsSymLink`), and write regular files. -/
def extractPass1 (pathPrefix localPath : GoString) : List ZipEntry → List FsAction
  | [] => []
  | f :: fs =>
    let rest := extractPass1 pathPrefix localPath fs
    if pathPrefix.isPrefixOf f.name then
      let path := filepathJoin2 localPath (trimPrefix f.name pathPrefix)
      if f.isDir then .mkdir path :: rest
      else if f.isSymlink then
        .symlink (filepathJoin2 (filepathDir path) f.content) path :: rest
      else .write path f.content :: rest
    else rest

/-- Second pass of the legacy `extractFiles` (`file.go`): for every
selected symlink entry, resolve the symlink created in the first pass and
replace it with a copy of its target. -/
def extractPass2 (pathPrefix localPath : GoString) : List ZipEntry → List FsAction
  | [] => []
  | f :: fs =>
    let rest := extractPass2 pathPrefix localPath fs
    if pathPrefix.isPrefixOf f.name && f.isSymlink then
      .resolveAndCopy (filepathJoin2 localPath (trimPrefix f.name pathPrefix)) :: rest
    else rest

/-- Embedding of the legacy `extractFiles` (`file.go`): both passes over
the archive, in order. -/
def extractFilesLegacy (entries : List ZipEntry)
    (filesToExtractFromZipPath localPath : GoString) : List FsAction :=
  let pathPrefix :=
    filepathJoin2 (entries.head?.getD default).name filesToExtractFromZipPath
  extractPass1 pathPrefix localPath entries ++ extractPass2 pathPrefix localPath entries

/-! ## The checksum engine (`checksum.go`)

The SHA-256 and SHA-512 compression functions live in Go's standard
library; the engine is embedded parametrically in the two digest
functions (`GoString → List Nat`, content bytes to digest bytes), and the
file system is a partial map from paths to contents. -/

/-- A sequence of bytes (digest output). -/
abbrev ByteSeq := List Nat

/-- Lowercase hexadecimal digit. -/
def hexDigitChar (n : Nat) : Char :=
  if n < 10 then Char.ofNat ('0'.toNat + n) else Char.ofNat ('a'.toNat + (n - 10))

/-- Embedding of `hex.EncodeToString`: two lowercase hex digits per byte. -/
def hexEncode (bs : ByteSeq) : GoString :=
  bs.foldr (fun b acc => hexDigitChar (b % 256 / 16) :: hexDigitChar (b % 16) :: acc) []

/-- Embedding of `getHasher`: only `sha256` and `sha512` are supported. -/
def getHasher (sha256Hash sha512Hash : GoString → ByteSeq) (algorithm : GoString) :
    Except GoString (GoString → ByteSeq) :=
  if algorithm = "sha256".data then .ok sha256Hash
  else if algorithm = "sha512".data then .ok sha512Hash
  else .error ("The checksum algorithm \"".data ++ algorithm ++ "\" is not supported".data)

/-- Embedding of `computeChecksum`: open the file, obtain the hasher,
stream the contents through it, and render the digest in hex. -/
def computeChecksum (fs : GoString → Option GoString)
    (sha256Hash sha512Hash : GoString → ByteSeq)
    (filePath algorithm : GoString) : Except GoString GoString :=
  match fs filePath with
  | none => .error ("open ".data ++ filePath)
  | some content =>
    match getHasher sha256Hash sha512Hash algorithm with
    | .error e => .error e
    | .ok h => .ok (hexEncode (h content))

/-- Go map read with zero value: the stored Boolean if the key is
present, `false` otherwise. -/
def lookupChecksum (m : List (GoString × Bool)) (k : GoString) : Bool :=
  match m.lookup k with
  | some b => b
  | none => false

/-- Embedding of `verifyChecksumOfReleaseAsset`: compute the digest
(failures become `errorWhileComputingChecksum`); if the digest is not
accepted by the checksum map, fail with `checksumDoesNotMatch` (the
detail text is abbreviated here); otherwise succeed. -/
def verifyChecksumOfReleaseAsset (fs : GoString → Option GoString)
    (sha256Hash sha512Hash : GoString → ByteSeq)
    (assetPath : GoString) (checksumMap : List (GoString × Bool)) (algorithm : GoString) :
    Option FetchError :=
  match computeChecksum fs sha256Hash sha512Hash assetPath algorithm with
  | .error e => some (newError errorWhileComputingChecksum e)
  | .ok computed =>
    if !lookupChecksum checksumMap computed then
      some (newError checksumDoesNotMatch
        ("Expected to checksum value to be one of the given values, but instead got ".data ++
          computed ++ " for Release Asset at ".data ++ assetPath))
    else none

/-- Embedding of the error flow of `writeResonseToDisk` (`github.go`):
a failing `os.Create` is wrapped and returned; otherwise the function
ends by returning `wrapError` of `io.Copy`'s error. -/
def writeResonseToDisk (createErr copyErr : Option GoString) : Option FetchError :=
  match createErr with
  | some e => wrapError (some e)
  | none => wrapError copyErr

/-- The ordering property claimed for the legacy extractor: once a
symlink has been created, no regular-file write happens afterwards
(equivalently: every symlink creation comes after every write). -/
def noWriteAfterSymlink : List FsAction → Bool
  | [] => true
  | a :: rest =>
    match a with
    | .symlink _ _ =>
      (rest.all fun b =>
          match b with
          | .write _ _ => false
          | _ => true) &&
        noWriteAfterSymlink rest
    | _ => noWriteAfterSymlink rest

/-- Lowercase hexadecimal digits. -/
def isLowerHexChar (c : Char) : Bool :=
  c.isDigit || ('a' ≤ c && c ≤ 'f')

/-! ## Theorems: the claims checked against the embedding -/

/-- **C10.** `wrapError` returns the no-error sentinel exactly when its
argument is nil; every non-nil error is wrapped with code `-1` and the
underlying message as details; consequently `writeResonseToDisk`
reports no error after a successful create and copy. -/
theorem claim_C10 :
    (∀ e, wrapError e = none ↔ e = none) ∧
    (∀ msg, wrapError (some msg) =
      some { errorCode := -1, details := msg, err := some msg }) ∧
    writeResonseToDisk none none = none := by
  refine ⟨fun e => ?_, fun msg => rfl, rfl⟩
  cases e <;> simp [wrapError]

/-- **C1.** Counter-evidence for semver monotonicity: on the tag list
`["1.0.7", "11.0.75"]` with the well-formed constraint `"1.0.7"` (which
the tag `"1.0.7"` satisfies), `getLatestAcceptableTag` returns the tag
`"11.0.75"`, whose parsed version `11.0.75` does **not** satisfy the
constraint: the re-mapping loop matches original tags by substring
containment of the canonical version string, and `"11.0.75"` contains
`"1.0.7"`. -/
theorem claim_C1 :
    getLatestAcceptableTag (("1.0.7").data) [("1.0.7").data, ("11.0.75").data] =
      (("11.0.75").data, none) ∧
    NewVersion (("11.0.75").data) = some ⟨[11, 0, 75], 3⟩ ∧
    NewConstraint (("1.0.7").data) = .ok [(.eq, ⟨[1, 0, 7], 3⟩)] ∧
    constraintsCheck [(.eq, ⟨[1, 0, 7], 3⟩)] ⟨[11, 0, 75], 3⟩ = false ∧
    NewVersion (("1.0.7").data) = some ⟨[1, 0, 7], 3⟩ ∧
    constraintsCheck [(.eq, ⟨[1, 0, 7], 3⟩)] ⟨[1, 0, 7], 3⟩ = true := by
  decide

/-- **C2.** The empty tag list does return the empty string with no error
(first conjunct), but a well-formed constraint satisfied by no tag does
**not** produce an error: on `"> 0.0.4"` against `["0.0.1", "0.0.2",
"0.0.3"]` the resolver returns `("0.0.1", nil)`, because the selection
loop starts from the smallest version and the result is never re-checked
against the constraint. -/
theorem claim_C2 :
    (∀ c, getLatestAcceptableTag c [] = ([], none)) ∧
    getLatestAcceptableTag (("> 0.0.4").data)
        [("0.0.1").data, ("0.0.2").data, ("0.0.3").data] =
      (("0.0.1").data, none) ∧
    NewConstraint (("> 0.0.4").data) = .ok [(.gt, ⟨[0, 0, 4], 3⟩)] ∧
    constraintsCheck [(.gt, ⟨[0, 0, 4], 3⟩)] ⟨[0, 0, 1], 3⟩ = false ∧
    constraintsCheck [(.gt, ⟨[0, 0, 4], 3⟩)] ⟨[0, 0, 2], 3⟩ = false ∧
    constraintsCheck [(.gt, ⟨[0, 0, 4], 3⟩)] ⟨[0, 0, 3], 3⟩ = false := by
  exact ⟨fun _ => rfl, by decide⟩

/-- **C3.** Counter-evidence for semver literal identity: the exact
literal tag `"0.0.1"` is present (and parses), yet
`getLatestAcceptableTag "0.0.1" ["0.0.1", "10.0.12"]` returns
`"10.0.12"`, because `"10.0.12"` also contains the substring `"0.0.1"`
and the re-mapping loop keeps the last match. -/
theorem claim_C3 :
    getLatestAcceptableTag (("0.0.1").data) [("0.0.1").data, ("10.0.12").data] =
      (("10.0.12").data, none) ∧
    NewVersion (("0.0.1").data) = some ⟨[0, 0, 1], 3⟩ ∧
    ("10.0.12").data ≠ ("0.0.1").data := by
  decide

/-- **C6.** The extractor performs no traversal check: an archive whose
second entry is `repo/../../evil.txt` is extracted to destination
`/dest/out` by writing `/evil.txt` — a path outside the destination —
with no error (the emission test only looks at the raw entry-name prefix,
and `filepath.Join` then resolves the `..` components). -/
theorem claim_C6 :
    extractFiles
        [⟨("repo/").data, true, false, []⟩,
          ⟨("repo/../../evil.txt").data, false, false, ("x").data⟩]
        [] (("/dest/out").data) =
      ([.mkdir (("/dest/out").data), .write (("/evil.txt").data) (("x").data)], 1) ∧
    (("/dest/out/").data).isPrefixOf (("/evil.txt").data) = false := by
  decide

/-- **C7 (counterexample).** In the legacy extractor the symlink is
created by the **first** pass (via `writeFileFromZip` dispatching on the
mode bits), interleaved with regular files in archive order: with a
symlink entry preceding a regular file, the emitted trace creates the
symlink before writing the file, so the claimed "symlinks are created in
a second pass only after every regular file" ordering fails. The second
pass instead resolves the symlink and replaces it with a copy. -/
theorem claim_C7_counterexample :
    extractFilesLegacy
        [⟨("repo/").data, true, false, []⟩,
          ⟨("repo/link").data, false, true, ("a.txt").data⟩,
          ⟨("repo/a.txt").data, false, false, ("hi").data⟩]
        [] (("/out").data) =
      [.mkdir (("/out").data),
        .symlink (("/out/a.txt").data) (("/out/link").data),
        .write (("/out/a.txt").data) (("hi").data),
        .resolveAndCopy (("/out/link").data)] ∧
    noWriteAfterSymlink
        (extractFilesLegacy
          [⟨("repo/").data, true, false, []⟩,
            ⟨("repo/link").data, false, true, ("a.txt").data⟩,
            ⟨("repo/a.txt").data, false, false, ("hi").data⟩]
          [] (("/out").data)) = false := by
  decide

/-- The entry loop emits exactly the selected entries, in archive order:
a `mkdir` for each selected directory and a `write` for each selected
regular file; the returned count is the number of selected regular files,
which is also the number of `write` actions emitted. -/
theorem extractZipEntries_actions (pp lp : GoString) (l : List ZipEntry) :
    (extractZipEntries pp lp l).1 =
      l.filterMap fun f =>
        if shouldExtractPathInZip pp f then
          some
            (if f.isDir then
              FsAction.mkdir (filepathJoin2 lp (trimPrefix f.name pp))
            else
              FsAction.write (filepathJoin2 lp (trimPrefix f.name pp)) f.content)
        else none := by
  induction l with
  | nil => simp [extractZipEntries]
  | cons f fs ih =>
    by_cases hs : shouldExtractPathInZip pp f
    · by_cases hd : f.isDir
      · simp [extractZipEntries, hs, hd, ih]
      · simp [extractZipEntries, hs, hd, ih]
    · simp [extractZipEntries, hs, ih]

theorem extractZipEntries_count (pp lp : GoString) (l : List ZipEntry) :
    (extractZipEntries pp lp l).2 =
      (l.filter fun f => shouldExtractPathInZip pp f && !f.isDir).length := by
  induction l with
  | nil => simp [extractZipEntries]
  | cons f fs ih =>
    by_cases hs : shouldExtractPathInZip pp f
    · by_cases hd : f.isDir
      · simp [extractZipEntries, hs, hd, ih]
      · simp [extractZipEntries, hs, hd, ih]
    · simp [extractZipEntries, hs, ih]

theorem extractZipEntries_count_writes (pp lp : GoString) (l : List ZipEntry) :
    (extractZipEntries pp lp l).2 =
      ((extractZipEntries pp lp l).1.filter fun a =>
        match a with
        | .write _ _ => true
        | _ => false).length := by
  induction l with
  | nil => simp [extractZipEntries]
  | cons f fs ih =>
    by_cases hs : shouldExtractPathInZip pp f
    · by_cases hd : f.isDir
      · simp [extractZipEntries, hs, hd, ih]
      · simp [extractZipEntries, hs, hd, ih]
    · simp [extractZipEntries, hs, ih]

/-- **C5.** The current `extractFiles` emits an entry exactly when it is
a regular file equal to the joined prefix or any entry whose name starts
with the joined prefix followed by `/` (first conjunct restates the
emission test); the emitted actions are exactly the selected entries in
order, and the returned integer counts exactly the selected regular
files — equivalently, the `write` actions — and no directories. -/
theorem claim_C5 (e0 : ZipEntry) (rest : List ZipEntry) (reqPrefix localPath : GoString) :
    (∀ f, shouldExtractPathInZip (filepathJoin2 e0.name reqPrefix) f =
      ((!f.isDir && f.name = filepathJoin2 e0.name reqPrefix) ||
        (filepathJoin2 e0.name reqPrefix ++ ['/']).isPrefixOf f.name)) ∧
    (extractFiles (e0 :: rest) reqPrefix localPath).1 =
      (e0 :: rest).filterMap (fun f =>
        if shouldExtractPathInZip (filepathJoin2 e0.name reqPrefix) f then
          some
            (if f.isDir then
              FsAction.mkdir
                (filepathJoin2 localPath
                  (trimPrefix f.name (filepathJoin2 e0.name reqPrefix)))
            else
              FsAction.write
                (filepathJoin2 localPath
                  (trimPrefix f.name (filepathJoin2 e0.name reqPrefix)))
                f.content)
        else none) ∧
    (extractFiles (e0 :: rest) reqPrefix localPath).2 =
      ((e0 :: rest).filter fun f =>
        shouldExtractPathInZip (filepathJoin2 e0.name reqPrefix) f && !f.isDir).length ∧
    (extractFiles (e0 :: rest) reqPrefix localPath).2 =
      ((extractFiles (e0 :: rest) reqPrefix localPath).1.filter fun a =>
        match a with
        | .write _ _ => true
        | _ => false).length := by
  exact ⟨fun f => rfl,
    extractZipEntries_actions (filepathJoin2 e0.name reqPrefix) localPath (e0 :: rest),
    extractZipEntries_count (filepathJoin2 e0.name reqPrefix) localPath (e0 :: rest),
    extractZipEntries_count_writes (filepathJoin2 e0.name reqPrefix) localPath (e0 :: rest)⟩

/-- The first pass of the legacy extractor, as a `filterMap`: every entry
whose name starts with the prefix contributes, in archive order, a
`mkdir` (directory), a `symlink` whose target is the payload joined onto
the link's parent directory (symlink mode bits), or a `write`. -/
theorem extractPass1_spec (pp lp : GoString) (l : List ZipEntry) :
    extractPass1 pp lp l =
      l.filterMap fun f =>
        if pp.isPrefixOf f.name then
          some
            (if f.isDir then
              FsAction.mkdir (filepathJoin2 lp (trimPrefix f.name pp))
            else if f.isSymlink then
              FsAction.symlink
                (filepathJoin2 (filepathDir (filepathJoin2 lp (trimPrefix f.name pp)))
                  f.content)
                (filepathJoin2 lp (trimPrefix f.name pp))
            else
              FsAction.write (filepathJoin2 lp (trimPrefix f.name pp)) f.content)
        else none := by
  induction l with
  | nil => simp [extractPass1]
  | cons f fs ih =>
    simp only [extractPass1, List.filterMap_cons]
    by_cases hp : List.isPrefixOf pp f.name = true
    · rw [if_pos hp, if_pos hp]
      by_cases hd : f.isDir = true
      · rw [if_pos hd, if_pos hd, ih]
      · rw [if_neg hd, if_neg hd]
        by_cases hl : f.isSymlink = true
        · rw [if_pos hl, if_pos hl, ih]
        · rw [if_neg hl, if_neg hl, ih]
    · rw [if_neg hp, if_neg hp]
      exact ih

/-- The second pass of the legacy extractor, as a `filterMap`: exactly
the selected symlink entries contribute, in archive order, a
resolve-and-replace-with-copy action. -/
theorem extractPass2_spec (pp lp : GoString) (l : List ZipEntry) :
    extractPass2 pp lp l =
      l.filterMap fun f =>
        if pp.isPrefixOf f.name && f.isSymlink then
          some (FsAction.resolveAndCopy (filepathJoin2 lp (trimPrefix f.name pp)))
        else none := by
  induction l with
  | nil => simp [extractPass2]
  | cons f fs ih =>
    simp only [extractPass2, List.filterMap_cons]
    by_cases hp : (List.isPrefixOf pp f.name && f.isSymlink) = true
    · rw [if_pos hp, if_pos hp, ih]
    · rw [if_neg hp, if_neg hp]
      exact ih

/-- **C7 (amended).** The legacy extractor creates each selected
symlink during the **first** pass, interleaved with directory and
regular-file actions in archive order, with its target equal to the raw
payload bytes joined onto the link's parent directory; the second pass,
which runs only after the entire first pass, resolves each selected
symlink and replaces it with a copy of its target (it creates no
symlinks). -/
theorem claim_C7 (e0 : ZipEntry) (rest : List ZipEntry) (reqPrefix localPath : GoString) :
    extractFilesLegacy (e0 :: rest) reqPrefix localPath =
      ((e0 :: rest).filterMap fun f =>
        if (filepathJoin2 e0.name reqPrefix).isPrefixOf f.name then
          some
            (if f.isDir then
              FsAction.mkdir
                (filepathJoin2 localPath
                  (trimPrefix f.name (filepathJoin2 e0.name reqPrefix)))
            else if f.isSymlink then
              FsAction.symlink
                (filepathJoin2
                  (filepathDir
                    (filepathJoin2 localPath
                      (trimPrefix f.name (filepathJoin2 e0.name reqPrefix))))
                  f.content)
                (filepathJoin2 localPath
                  (trimPrefix f.name (filepathJoin2 e0.name reqPrefix)))
            else
              FsAction.write
                (filepathJoin2 localPath
                  (trimPrefix f.name (filepathJoin2 e0.name reqPrefix)))
                f.content)
        else none) ++
      ((e0 :: rest).filterMap fun f =>
        if (filepathJoin2 e0.name reqPrefix).isPrefixOf f.name && f.isSymlink then
          some
            (FsAction.resolveAndCopy
              (filepathJoin2 localPath
                (trimPrefix f.name (filepathJoin2 e0.name reqPrefix))))
        else none) := by
  have h1 := extractPass1_spec (filepathJoin2 e0.name reqPrefix) localPath (e0 :: rest)
  have h2 := extractPass2_spec (filepathJoin2 e0.name reqPrefix) localPath (e0 :: rest)
  calc extractFilesLegacy (e0 :: rest) reqPrefix localPath
      = extractPass1 (filepathJoin2 e0.name reqPrefix) localPath (e0 :: rest) ++
          extractPass2 (filepathJoin2 e0.name reqPrefix) localPath (e0 :: rest) := rfl
    _ = _ := by rw [h1, h2]

/-- The tag-selection loop of `FetchTags` is exactly a filter on
semver-parseability. -/
theorem fetchTagsSelect_eq_filter (names : List GoString) :
    fetchTagsSelect names = names.filter fun n => (NewVersion n).isSome := by
  induction names with
  | nil => rfl
  | cons n ns ih =>
    by_cases h : (NewVersion n).isSome = true
    · simp [fetchTagsSelect, List.filter_cons, h, ih]
    · simp [fetchTagsSelect, List.filter_cons, h, ih]

/-- If the tag-parsing loop succeeds, every tag in its input parses. -/
theorem parseTagVersions_ok_mem {ts : List GoString} {vs : List GoVersion}
    (h : parseTagVersions ts = .ok vs) :
    ∀ t ∈ ts, (NewVersion t).isSome = true := by
  induction ts generalizing vs with
  | nil => intro t ht; cases ht
  | cons a as ih =>
    intro t ht
    rcases List.mem_cons.mp ht with rfl | hmem
    · cases hv : NewVersion t with
      | none => rw [parseTagVersions, hv] at h; cases h
      | some v => simp [hv]
    · cases hv : NewVersion a with
      | none => rw [parseTagVersions, hv] at h; cases h
      | some v =>
        rw [parseTagVersions, hv] at h
        cases hrec : parseTagVersions as with
        | error e => rw [hrec] at h; cases h
        | ok ws => exact ih hrec t hmem

/-- **C4 (counterexample).** `getLatestAcceptableTag` does **not** treat
a non-parseable tag as absent: handed the single non-semver tag `"x"`,
it fails with a wrapped `Malformed version` error instead of behaving
like the empty list. -/
theorem claim_C4_counterexample :
    getLatestAcceptableTag [] [("x").data] =
      ([], some (FetchError.mk (-1) (("Malformed version: x").data)
        (some (("Malformed version: x").data)))) ∧
    getLatestAcceptableTag [] [] = ([], none) := by
  decide

/-- **C4 (amended).** Non-parseable tags are silently filtered out by
`FetchTags` (its selection loop keeps exactly the semver-parseable names,
so only parseable names reach the resolver); `getLatestAcceptableTag`
itself, however, fails with an error whenever any tag of its input fails
to parse, rather than skipping it. -/
theorem claim_C4 :
    (∀ names, fetchTagsSelect names = names.filter fun n => (NewVersion n).isSome) ∧
    (∀ names t, t ∈ fetchTagsSelect names → (NewVersion t).isSome = true) ∧
    (∀ c t ts, t ∈ ts → NewVersion t = none →
      ((getLatestAcceptableTag c ts).2).isSome = true) := by
  refine ⟨fetchTagsSelect_eq_filter, ?_, ?_⟩
  · intro names t ht
    rw [fetchTagsSelect_eq_filter] at ht
    exact (List.mem_filter.mp ht).2
  · intro c t ts ht hn
    cases ts with
    | nil => cases ht
    | cons a as =>
      cases hp : parseTagVersions (a :: as) with
      | error msg =>
        simp [getLatestAcceptableTag, hp, wrapError]
      | ok vs =>
        have := parseTagVersions_ok_mem hp t ht
        rw [hn] at this
        cases this

/-- Witness for C4: evaluating the amended claim at the concrete
non-parseable tag `"x"`. -/
theorem claim_C4_witness :
    ((getLatestAcceptableTag [] [("x").data]).2).isSome = true :=
  claim_C4.2.2 [] (("x").data) [("x").data] (by decide) (by decide)

/-- Each hex digit produced for a nibble is a lowercase hex character. -/
theorem hexDigitChar_lowerHex (n : Nat) (h : n < 16) :
    isLowerHexChar (hexDigitChar n) = true := by
  interval_cases n <;> decide

/-- `hexEncode` produces only lowercase hexadecimal characters. -/
theorem hexEncode_lowerHex (bs : ByteSeq) :
    (hexEncode bs).all isLowerHexChar = true := by
  induction bs with
  | nil => rfl
  | cons b bs ih =>
    have h1 : b % 256 / 16 < 16 := by
      have : b % 256 < 256 := Nat.mod_lt _ (by norm_num)
      omega
    have h2 : b % 16 < 16 := Nat.mod_lt _ (by norm_num)
    simp [hexEncode, List.all_cons, hexDigitChar_lowerHex _ h1,
      hexDigitChar_lowerHex _ h2]
    simpa [hexEncode] using ih

/-- **C8.** For every asset whose digest computation succeeds under
`sha256` or `sha512`, the computed digest is a lowercase hexadecimal
string, verification succeeds exactly when the digest is accepted by the
checksum map, and a rejected digest yields a `checksumDoesNotMatch`
error. -/
theorem claim_C8 (fs : GoString → Option GoString) (h256 h512 : GoString → ByteSeq)
    (path content : GoString) (m : List (GoString × Bool)) (algo : GoString)
    (halgo : algo = ("sha256").data ∨ algo = ("sha512").data)
    (hfile : fs path = some content) :
    ∃ digest,
      computeChecksum fs h256 h512 path algo = .ok digest ∧
      digest.all isLowerHexChar = true ∧
      (verifyChecksumOfReleaseAsset fs h256 h512 path m algo = none ↔
        lookupChecksum m digest = true) ∧
      (lookupChecksum m digest = false →
        ∃ e, verifyChecksumOfReleaseAsset fs h256 h512 path m algo = some e ∧
          e.errorCode = checksumDoesNotMatch) := by
  have hh : ∃ h, getHasher h256 h512 algo = .ok h := by
    rcases halgo with h | h <;> subst h
    · exact ⟨h256, rfl⟩
    · exact ⟨h512, rfl⟩
  obtain ⟨h, hgh⟩ := hh
  refine ⟨hexEncode (h content), ?_, hexEncode_lowerHex _, ?_, ?_⟩
  · simp [computeChecksum, hfile, hgh]
  · by_cases hm : lookupChecksum m (hexEncode (h content)) = true
    · simp [verifyChecksumOfReleaseAsset, computeChecksum, hfile, hgh, hm]
    · simp [verifyChecksumOfReleaseAsset, computeChecksum, hfile, hgh, hm]
  · intro hm
    refine ⟨newError checksumDoesNotMatch
      (("Expected to checksum value to be one of the given values, but instead got ").data ++
        hexEncode (h content) ++ (" for Release Asset at ").data ++ path), ?_, rfl⟩
    simp [verifyChecksumOfReleaseAsset, computeChecksum, hfile, hgh, hm, newError]

/-- A one-file file system used to witness the checksum claims. -/
def sampleFileSystem : GoString → Option GoString :=
  fun p => if p = ("a").data then some (("x").data) else none

/-- A constant digest function used to witness the checksum claims. -/
def sampleDigest : GoString → ByteSeq := fun _ => [171]

/-- Witness for C8: a concrete file, digest function and checksum map. -/
theorem claim_C8_witness :
    ∃ digest,
      computeChecksum sampleFileSystem sampleDigest sampleDigest (("a").data)
          (("sha256").data) = .ok digest ∧
      digest.all isLowerHexChar = true ∧
      (verifyChecksumOfReleaseAsset sampleFileSystem sampleDigest sampleDigest
          (("a").data) [(("ab").data, true)] (("sha256").data) = none ↔
        lookupChecksum [(("ab").data, true)] digest = true) ∧
      (lookupChecksum [(("ab").data, true)] digest = false →
        ∃ e, verifyChecksumOfReleaseAsset sampleFileSystem sampleDigest sampleDigest
            (("a").data) [(("ab").data, true)] (("sha256").data) = some e ∧
          e.errorCode = checksumDoesNotMatch) :=
  claim_C8 sampleFileSystem sampleDigest sampleDigest (("a").data) (("x").data)
    [(("ab").data, true)] (("sha256").data) (Or.inl rfl) rfl

/-- A decimal digit is not a whitespace character. -/
theorem isDigit_not_space {c : Char} (h : c.isDigit = true) : isSpaceChar c = false := by
  have h1 : c ≠ ' ' := fun e => by subst e; simp [Char.isDigit] at h
  have h2 : c ≠ '\t' := fun e => by subst e; simp [Char.isDigit] at h
  have h3 : c ≠ '\n' := fun e => by subst e; simp [Char.isDigit] at h
  have h4 : c ≠ '\r' := fun e => by subst e; simp [Char.isDigit] at h
  simp [isSpaceChar, h1, h2, h3, h4]

/-- A decimal digit is none of the constraint-operator lead characters. -/
theorem isDigit_not_special {c : Char} (h : c.isDigit = true) :
    c ≠ '=' ∧ c ≠ '>' ∧ c ≠ '<' ∧ c ≠ '!' ∧ c ≠ '~' := by
  refine ⟨?_, ?_, ?_, ?_, ?_⟩ <;> exact fun e => by subst e; simp [Char.isDigit] at h

/-- A whitespace character is none of the constraint-operator lead
characters. -/
theorem isSpaceChar_not_special {c : Char} (h : isSpaceChar c = true) :
    c ≠ '=' ∧ c ≠ '>' ∧ c ≠ '<' ∧ c ≠ '!' ∧ c ≠ '~' := by
  refine ⟨?_, ?_, ?_, ?_, ?_⟩ <;> exact fun e => by subst e; simp [isSpaceChar] at h

/-- Dropping a satisfied-prefix: if every element of `w` satisfies `p`,
`dropWhile p` of `w ++ r` ignores `w`. -/
theorem dropWhile_append_all {p : Char → Bool} {w : GoString} (r : GoString)
    (h : w.all p = true) : (w ++ r).dropWhile p = r.dropWhile p := by
  induction w with
  | nil => rfl
  | cons c cs ih =>
    obtain ⟨hc, hcs⟩ : p c = true ∧ cs.all p = true := by simpa using h
    simp [List.dropWhile_cons, hc, ih hcs]

/-- `dropWhile` is the identity when the head falsifies the predicate. -/
theorem dropWhile_head_false {p : Char → Bool} {v : GoString} {a : Char}
    (hh : v.head? = some a) (ha : p a = false) : v.dropWhile p = v := by
  cases v with
  | nil => rfl
  | cons c cs =>
    have : c = a := by simpa using hh
    subst this
    simp [List.dropWhile_cons, ha]

/-- Trimming whitespace from both sides of a sandwiched string whose core
neither starts nor ends with whitespace recovers the core. -/
theorem trimSpace_sandwich (w₁ w₂ v : GoString)
    (h₁ : w₁.all isSpaceChar = true) (h₂ : w₂.all isSpaceChar = true)
    {a : Char} (hh : v.head? = some a) (hha : isSpaceChar a = false)
    {b : Char} (hl : v.getLast? = some b) (hlb : isSpaceChar b = false) :
    trimSpace (w₁ ++ v ++ w₂) = v := by
  have hvw : (v ++ w₂).head? = some a := by
    cases v with
    | nil => cases hh
    | cons c cs => simpa using hh
  have s1 : (w₁ ++ v ++ w₂).dropWhile isSpaceChar = v ++ w₂ := by
    rw [List.append_assoc, dropWhile_append_all _ h₁, dropWhile_head_false hvw hha]
  have s2 : ((v ++ w₂).reverse).dropWhile isSpaceChar = v.reverse := by
    rw [List.reverse_append, dropWhile_append_all _ (by simpa using h₂)]
    have hrev : v.reverse.head? = some b := by
      rw [List.head?_reverse]
      exact hl
    exact dropWhile_head_false hrev hlb
  unfold trimSpace
  rw [s1, s2, List.reverse_reverse]

/-- `splitOnDot` always yields at least one segment. -/
theorem splitOnDot_ne_nil (t : GoString) : splitOnDot t ≠ [] := by
  cases t with
  | nil => simp [splitOnDot]
  | cons c rest =>
    cases h : splitOnDot rest with
    | nil => simp [splitOnDot, h]
    | cons seg segs =>
      by_cases hc : c = '.'
      · simp [splitOnDot, h, hc]
      · simp [splitOnDot, h, hc]

/-- If every segment of a nonempty string is a nonempty digit run, the
first character is a digit. -/
theorem head_digit_of_segments {a : Char} {v' : GoString}
    (h : (splitOnDot (a :: v')).all goodSegment = true) : a.isDigit = true := by
  cases hs : splitOnDot v' with
  | nil => exact absurd hs (splitOnDot_ne_nil v')
  | cons seg segs =>
    rw [splitOnDot, hs] at h
    by_cases hc : a = '.'
    · exfalso
      simp [hc, goodSegment] at h
    · simp [hc, goodSegment] at h
      exact h.1.1

/-- The first segment is all digits and the remaining segments are
nonempty digit runs. -/
def headDigitsTailGood (t : GoString) : Prop :=
  match splitOnDot t with
  | [] => False
  | seg :: segs => seg.all Char.isDigit = true ∧ segs.all goodSegment = true

/-- Fully good segment lists satisfy the weaker head/tail invariant. -/
theorem headDigitsTailGood_of_all {t : GoString}
    (h : (splitOnDot t).all goodSegment = true) : headDigitsTailGood t := by
  cases hs : splitOnDot t with
  | nil => exact absurd hs (splitOnDot_ne_nil t)
  | cons seg segs =>
    rw [hs] at h
    obtain ⟨h1, h2⟩ : goodSegment seg = true ∧ segs.all goodSegment = true := by simpa using h
    obtain ⟨-, h3⟩ : (¬seg.isEmpty = true) ∧ seg.all Char.isDigit = true := by
      simpa [goodSegment] using h1
    unfold headDigitsTailGood
    rw [hs]
    exact ⟨h3, h2⟩

/-- A nonempty string whose dot segments satisfy the head/tail invariant
ends in a digit. -/
theorem getLast_digit : ∀ t : GoString, t ≠ [] → headDigitsTailGood t →
    ∃ b, t.getLast? = some b ∧ b.isDigit = true := by
  intro t
  induction t with
  | nil => intro h; cases h rfl
  | cons c rest ih =>
    intro _ hg
    cases rest with
    | nil =>
      by_cases hc : c = '.'
      · exfalso
        unfold headDigitsTailGood at hg
        rw [show splitOnDot [c] = [[], []] by simp [splitOnDot, hc]] at hg
        simpa [goodSegment] using hg.2
      · refine ⟨c, by simp, ?_⟩
        unfold headDigitsTailGood at hg
        rw [show splitOnDot [c] = [[c]] by simp [splitOnDot, hc]] at hg
        simpa using hg.1
    | cons d rest' =>
      have hnext : headDigitsTailGood (d :: rest') := by
        cases hs : splitOnDot (d :: rest') with
        | nil => exact absurd hs (splitOnDot_ne_nil _)
        | cons seg segs =>
          unfold headDigitsTailGood at hg
          by_cases hc : c = '.'
          · rw [show splitOnDot (c :: d :: rest') = [] :: seg :: segs by
                rw [splitOnDot, hs]; simp [hc]] at hg
            obtain ⟨g1, g2⟩ : goodSegment seg = true ∧ segs.all goodSegment = true := by
              simpa using hg.2
            obtain ⟨-, g3⟩ : (¬seg.isEmpty = true) ∧ seg.all Char.isDigit = true := by
              simpa [goodSegment] using g1
            unfold headDigitsTailGood
            rw [hs]
            exact ⟨g3, g2⟩
          · rw [show splitOnDot (c :: d :: rest') = (c :: seg) :: segs by
                rw [splitOnDot, hs]; simp [hc]] at hg
            obtain ⟨g1, g2⟩ := hg
            obtain ⟨-, g3⟩ : c.isDigit = true ∧ seg.all Char.isDigit = true := by
              simpa using g1
            unfold headDigitsTailGood
            rw [hs]
            exact ⟨g3, g2⟩
      obtain ⟨b, hb, hbd⟩ := ih (by simp) hnext
      exact ⟨b, by rw [List.getLast?_cons_cons]; exact hb, hbd⟩

/-- A parseable version literal is nonempty, starts with `v` or a digit
(in particular: not whitespace and not a constraint-operator character)
and ends with a digit (in particular: not whitespace). -/
theorem newVersion_shape {v : GoString} (h : (NewVersion v).isSome = true) :
    ∃ a v', v = a :: v' ∧ isSpaceChar a = false ∧
      a ≠ '=' ∧ a ≠ '>' ∧ a ≠ '<' ∧ a ≠ '!' ∧ a ≠ '~' ∧
      ∃ b, v.getLast? = some b ∧ isSpaceChar b = false := by
  have hall : (splitOnDot (stripV v)).all goodSegment = true := by
    by_cases hc : (splitOnDot (stripV v)).all goodSegment = true
    · exact hc
    · simp [NewVersion, hc] at h
  cases v with
  | nil =>
    exfalso
    simp [stripV, splitOnDot, goodSegment] at hall
  | cons a v' =>
    by_cases hv : a = 'v'
    · subst hv
      rw [show stripV ('v' :: v') = v' from by simp [stripV]] at hall
      have hv'ne : v' ≠ [] := by
        intro e; subst e; simp [splitOnDot, goodSegment] at hall
      obtain ⟨b, hb, hbd⟩ := getLast_digit v' hv'ne (headDigitsTailGood_of_all hall)
      refine ⟨'v', v', rfl, by decide, by decide, by decide, by decide, by decide,
        by decide, b, ?_, isDigit_not_space hbd⟩
      cases v' with
      | nil => exact absurd rfl hv'ne
      | cons d r => rw [List.getLast?_cons_cons]; exact hb
    · rw [show stripV (a :: v') = a :: v' from by simp [stripV, hv]] at hall
      have had : a.isDigit = true := head_digit_of_segments hall
      obtain ⟨ne1, ne2, ne3, ne4, ne5⟩ := isDigit_not_special had
      obtain ⟨b, hb, hbd⟩ :=
        getLast_digit (a :: v') (by simp) (headDigitsTailGood_of_all hall)
      exact ⟨a, v', rfl, isDigit_not_space had, ne1, ne2, ne3, ne4, ne5, b, hb,
        isDigit_not_space hbd⟩

/-- **C9.** `isTagConstraintSpecificTag` returns `(true, trimmed_tag)`
for a bare version surrounded by optional whitespace, with or without a
leading `=`; it returns `(false, expr)` for expressions starting with
`>`, `<`, `!` or `~` and for the empty expression; and the three
spec examples evaluate as claimed. -/
theorem claim_C9 :
    (∀ w₁ w₂ v, w₁.all isSpaceChar = true → w₂.all isSpaceChar = true →
      (NewVersion v).isSome = true →
      isTagConstraintSpecificTag (w₁ ++ v ++ w₂) = (true, v)) ∧
    (∀ w₁ w₂ v, w₁.all isSpaceChar = true → w₂.all isSpaceChar = true →
      (NewVersion v).isSome = true →
      isTagConstraintSpecificTag ('=' :: (w₁ ++ v ++ w₂)) = (true, v)) ∧
    (∀ c rest, c = '>' ∨ c = '<' ∨ c = '!' ∨ c = '~' →
      isTagConstraintSpecificTag (c :: rest) = (false, c :: rest)) ∧
    isTagConstraintSpecificTag [] = (false, []) ∧
    isTagConstraintSpecificTag ((" 1.0.7 ").data) = (true, ("1.0.7").data) ∧
    isTagConstraintSpecificTag (("~> 1.0.0").data) = (false, ("~> 1.0.0").data) ∧
    isTagConstraintSpecificTag (("=v1.0.7").data) = (true, ("v1.0.7").data) := by
  have key : ∀ w₁ w₂ v, w₁.all isSpaceChar = true → w₂.all isSpaceChar = true →
      (NewVersion v).isSome = true → trimSpace (w₁ ++ v ++ w₂) = v := by
    intro w₁ w₂ v h₁ h₂ hv
    obtain ⟨a, v', rfl, hasp, -, -, -, -, -, b, hb, hbsp⟩ := newVersion_shape hv
    exact trimSpace_sandwich w₁ w₂ (a :: v') h₁ h₂ rfl hasp hb hbsp
  refine ⟨?_, ?_, ?_, rfl, by decide, by decide, by decide⟩
  · intro w₁ w₂ v h₁ h₂ hv
    obtain ⟨a, v', hveq, hasp, ne1, ne2, ne3, ne4, ne5, b, hb, hbsp⟩ :=
      newVersion_shape hv
    cases w₁ with
    | nil =>
      subst hveq
      have e : ([] : GoString) ++ (a :: v') ++ w₂ = a :: (v' ++ w₂) := by simp
      rw [e]
      simp [isTagConstraintSpecificTag, ne1, ne2, ne3, ne4, ne5]
      have := trimSpace_sandwich [] w₂ (a :: v') (by simp) h₂ rfl hasp hb hbsp
      simpa using this
    | cons s w₁' =>
      subst hveq
      obtain ⟨hs, -⟩ : isSpaceChar s = true ∧ w₁'.all isSpaceChar = true := by
        simpa using h₁
      obtain ⟨se1, se2, se3, se4, se5⟩ := isSpaceChar_not_special hs
      have e : (s :: w₁') ++ (a :: v') ++ w₂ = s :: (w₁' ++ (a :: v') ++ w₂) := by simp
      rw [e]
      simp [isTagConstraintSpecificTag, se1, se2, se3, se4, se5]
      have := trimSpace_sandwich (s :: w₁') w₂ (a :: v') h₁ h₂ rfl hasp hb hbsp
      simpa using this
  · intro w₁ w₂ v h₁ h₂ hv
    simp [isTagConstraintSpecificTag]
    rw [← List.append_assoc]
    exact key w₁ w₂ v h₁ h₂ hv
  · intro c rest h
    rcases h with rfl | rfl | rfl | rfl <;> simp [isTagConstraintSpecificTag]

/-- Witness for C9: the bare version `v1.2.3` surrounded by one space on
each side is recognized as the specific tag `v1.2.3`. -/
theorem claim_C9_witness :
    isTagConstraintSpecificTag ([' '] ++ ("v1.2.3").data ++ [' ']) =
      (true, ("v1.2.3").data) :=
  claim_C9.1 [' '] [' '] (("v1.2.3").data) (by decide) (by decide) (by decide)

end Fetch








